import Mathlib

/-! # Prometheus modular input: scrape, transform, emit

A shallow embedding of `prometheus.go`: the command dispatch of `main`, the
configuration resolver `config`, the query construction of `run` and the
transform loop of `run`.

The Go library functions that these call are modelled from their documented
behaviour: `strconv.ParseBool`, `strings.Split`, `url.Values` with `Add` and
`Encode`, `url.QueryEscape`, `url.ParseQuery`, `math.IsNaN`, `math.IsInf` and
the verbs `%s`, `%f`, `%d` of `fmt.Sprintf`. A `float64` is its IEEE-754 bit
pattern, an `int64` timestamp is an integer, a Go string is a `String` whose
bytes are those of its UTF-8 encoding. The parser `textparse` is outside the
repository: the loop of `run` is given the results of the successive calls of
`p.Next()`, a sequence that need not ever come to `io.EOF`, and the query
construction is given the values that `req.URL.Query()` returns for the
configured URI. `step` is one iteration of the loop, `loop` its iterations on
the results before `io.EOF`, and `runLoop` the loop on a parser, which returns
only when the parser reports `io.EOF`.
-/

set_option exponentiation.threshold 2048

namespace Prometheus

/-! ## float64 and the verbs of `fmt.Sprintf("%s %f %d\n", b, val, now)` -/

/-- An IEEE-754 binary64 value, given by the three fields of its bit pattern:
sign bit, 11-bit biased exponent, 52-bit fraction. -/
structure Float64 where
  sign : Bool
  exponent : Fin 2048
  fraction : Fin 4503599627370496
  deriving DecidableEq

namespace Float64

/-- Go `math.IsNaN(f)`: exponent field all ones and a non-zero fraction. -/
def IsNaN (f : Float64) : Bool :=
  f.exponent.val == 2047 && f.fraction.val != 0

/-- Go `math.IsInf(f, 0)`: either infinity, exponent field all ones and a zero
fraction. -/
def IsInf (f : Float64) : Bool :=
  f.exponent.val == 2047 && f.fraction.val == 0

/-- Integer significand of a float that is neither NaN nor infinite: subnormals
have no hidden bit. -/
def mant (f : Float64) : Nat :=
  if f.exponent.val = 0 then f.fraction.val else 4503599627370496 + f.fraction.val

/-- Number of binary places of the significand when the binary exponent is
negative: the magnitude is `mant / 2 ^ binPlaces * 2 ^ binShift`. -/
def binPlaces (f : Float64) : Nat :=
  if f.exponent.val = 0 then 1074 else 1075 - f.exponent.val

/-- Left shift of the significand when the binary exponent is non-negative. -/
def binShift (f : Float64) : Nat :=
  f.exponent.val - 1075

/-- The magnitude of a finite float as an exact rational. -/
def magnitude (f : Float64) : ℚ :=
  (f.mant : ℚ) * 2 ^ f.binShift / 2 ^ f.binPlaces

/-- The magnitude times `10 ^ 6`, rounded to the nearest integer, a tie going to
the even neighbour: the digits `strconv.FormatFloat(f, 'f', 6, 64)` keeps (it
converts the significand to its exact decimal expansion and rounds that after
the sixth fractional digit, half to even). -/
def scaled6 (f : Float64) : Nat :=
  let num := f.mant * 2 ^ f.binShift * 1000000
  let den := 2 ^ f.binPlaces
  let q := num / den
  let r := num % den
  if den < 2 * r ∨ (2 * r = den ∧ q % 2 = 1) then q + 1 else q

end Float64

/-- The character of a decimal digit. -/
def digitChar (d : Nat) : Char :=
  Nat.digitChar (d % 10)

/-- The six fractional digits, most significant first. -/
def frac6 (n : Nat) : List Char :=
  [digitChar (n / 100000), digitChar (n / 10000), digitChar (n / 1000),
   digitChar (n / 100), digitChar (n / 10), digitChar n]

/-- The verb `%f` of Go `fmt` on a float that is neither NaN nor infinite:
sign, integer part, a point and six fractional digits. -/
def fmtF (f : Float64) : String :=
  (if f.sign then "-" else "") ++ Nat.repr (f.scaled6 / 1000000) ++ "."
    ++ String.mk (frac6 (f.scaled6 % 1000000))

/-- The verb `%d` of Go `fmt` on an `int64`. -/
def fmtD (i : Int) : String :=
  match i with
  | Int.ofNat n => Nat.repr n
  | Int.negSucc n => "-" ++ Nat.repr (n + 1)

/-- The call `fmt.Sprintf("%s %f %d\n", b, val, now)` of `run`. -/
def Sprintf (b : String) (val : Float64) (now : Int) : String :=
  b ++ " " ++ fmtF val ++ " " ++ fmtD now ++ "\n"

/-! ## The transform loop of `run` -/

/-- The entry types of `textparse`. -/
inductive Entry
  | EntryInvalid
  | EntryType
  | EntryHelp
  | EntrySeries
  | EntryComment
  deriving DecidableEq, Repr

/-- What `p.Series()` returns: the label-set text, the optional timestamp and
the value. -/
structure Series where
  b : String
  ts : Option Int
  val : Float64
  deriving DecidableEq

/-- One result of `p.Next()` other than `io.EOF`: a line-level error, or an
entry type together with what `p.Series()` returns at that point. -/
inductive NextResult
  | err
  | entry (et : Entry) (s : Series)
  deriving DecidableEq

/-- The variables of the loop: the carry-forward timestamp `now` and the
strings handed to `output.WriteString`, oldest first. -/
structure LoopState where
  now : Int
  output : List String
  deriving DecidableEq

/-- One iteration of the `for` loop of `run` on a result that is not `io.EOF`. -/
def step (st : LoopState) (r : NextResult) : LoopState :=
  match r with
  | NextResult.err => st
  | NextResult.entry et s =>
    if et = Entry.EntrySeries then
      let now := match s.ts with
        | some t => t
        | none => st.now
      if s.val.IsNaN || s.val.IsInf then
        { st with now := now }
      else
        { now := now, output := st.output ++ [Sprintf s.b s.val now] }
    else st

/-- The iterations of the `for` loop of `run` on the results that `p.Next()`
gives before it first reports `io.EOF`; whether and when it does is the
matter of `runLoop`. -/
def loop (st : LoopState) : List NextResult → LoopState
  | [] => st
  | r :: rest => loop (step st r) rest

/-- The records that the loop of a scrape started at `now` has written after
the given results. -/
def transform (now : Int) (rs : List NextResult) : List String :=
  (loop { now := now, output := [] } rs).output

/-- The series samples of a result list, in scan order. -/
def seriesOf : List NextResult → List Series
  | [] => []
  | NextResult.err :: rest => seriesOf rest
  | NextResult.entry et s :: rest =>
    if et = Entry.EntrySeries then s :: seriesOf rest else seriesOf rest

/-- A value that is neither NaN nor an infinity. -/
def finite (v : Float64) : Prop :=
  v.IsNaN = false ∧ v.IsInf = false

instance (v : Float64) : Decidable (finite v) := by
  unfold finite; infer_instance

/-- The timestamp the carry-forward rule gives the `i`-th series sample: the
last explicit timestamp among the samples `0..i`, or the scrape-start time `s`
when none of them has one. -/
def carriedAt (s : Int) (ss : List Series) (i : Nat) : Int :=
  (((ss.take (i + 1)).filterMap Series.ts).getLast?).getD s

/-- The timestamps of the carry-forward rule for all series samples. -/
def carried (s : Int) (ss : List Series) : List Int :=
  (List.range ss.length).map (carriedAt s ss)

/-- A result that is not a line-level error. -/
def notErr : NextResult → Bool
  | NextResult.err => false
  | NextResult.entry _ _ => true

/-- A result that is not an entry of a type other than series. -/
def notOtherEntry : NextResult → Bool
  | NextResult.err => true
  | NextResult.entry et _ => decide (et = Entry.EntrySeries)

/-- A parser as `run` sees it: the result of each call of `p.Next()`, counted
from 0, where `none` is `io.EOF`. Nothing makes a parser report `io.EOF` at
some call: one that reports a line-level error at every call from some point on
is a parser too. -/
abbrev Parser := Nat → Option NextResult

/-- The `for` loop of `run` from the `i`-th call of `p.Next()` on, followed for
at most `fuel` iterations: the state at the `break` on `io.EOF`, or `none` when
the loop is still running after `fuel` iterations. -/
def runLoop (p : Parser) : Nat → Nat → LoopState → Option LoopState
  | 0, _, _ => none
  | fuel + 1, i, st =>
    match p i with
    | none => some st
    | some r => runLoop p fuel (i + 1) (step st r)

/-- The records that `run` has handed to `output` when it returns, the loop
being followed for at most `fuel` iterations. The deferred `output.Flush()`
runs when `run` returns, so a loop that does not end never reaches it. -/
def emitted (p : Parser) (now : Int) (fuel : Nat) : Option (List String) :=
  (runLoop p fuel 0 { now := now, output := [] }).map LoopState.output

/-- The results of the first `n` calls of `p.Next()` that are not `io.EOF`. -/
def results (p : Parser) (n : Nat) : List NextResult :=
  (List.range n).filterMap p

/-- The parser that reports the results of a list and `io.EOF` from then on. -/
def ofList (l : List NextResult) : Parser :=
  fun i => l.get? i

/-- The parser that reports the results of a list and from then on a line-level
error at every call, never `io.EOF`. -/
def errForever (l : List NextResult) : Parser :=
  fun i =>
    match l.get? i with
    | some r => some r
    | none => some NextResult.err

/-- The characters that reach standard output with a list of records. -/
def chars (out : List String) : List Char :=
  out.flatMap String.data

/-! ## `strconv.ParseBool`, `strings.Split` and `config` -/

/-- Go `strconv.ParseBool`: the value and whether an error is returned; with an
error the value is `false`. -/
def ParseBool (str : String) : Bool × Bool :=
  if str = "1" ∨ str = "t" ∨ str = "T" ∨ str = "true" ∨ str = "TRUE" ∨ str = "True" then
    (true, false)
  else if str = "0" ∨ str = "f" ∨ str = "F" ∨ str = "false" ∨ str = "FALSE"
      ∨ str = "False" then
    (false, false)
  else
    (false, true)

/-- The pieces of a character list between occurrences of `sep`; `acc` holds the
current piece, reversed. -/
def splitChars (sep : Char) : List Char → List Char → List (List Char)
  | acc, [] => [acc.reverse]
  | acc, c :: cs =>
    if c = sep then acc.reverse :: splitChars sep [] cs
    else splitChars sep (c :: acc) cs

/-- Go `strings.Split(s, sep)` for a separator of one ASCII character. -/
def Split (s : String) (sep : Char) : List String :=
  (splitChars sep [] s.data).map String.mk

/-- A `<param>` element of the configuration document. -/
structure param where
  Name : String
  Value : String
  deriving DecidableEq

/-- A `<stanza>` element of the configuration document. -/
structure stanza where
  Params : List param
  Name : String
  deriving DecidableEq

/-- The resolved scrape configuration. -/
structure inputConfig where
  URI : String
  Match : List String
  InsecureSkipVerify : Bool
  Index : String
  Sourcetype : String
  Host : String
  deriving DecidableEq

/-- The zero value of `inputConfig`. -/
def inputConfig.zero : inputConfig :=
  { URI := "", Match := [], InsecureSkipVerify := false, Index := "", Sourcetype := "",
    Host := "" }

/-- The body of the inner `for` loop of `config`, on one parameter. -/
def configParam (c : inputConfig) (p : param) : inputConfig :=
  let c := if p.Name = "URI" then { c with URI := p.Value } else c
  let c := if p.Name = "insecureSkipVerify" then
      { c with InsecureSkipVerify := (ParseBool p.Value).1 } else c
  let c := if p.Name = "index" then { c with Index := p.Value } else c
  let c := if p.Name = "sourcetype" then { c with Sourcetype := p.Value } else c
  let c := if p.Name = "host" then { c with Host := p.Value } else c
  let c := if p.Name = "match" then
      (Split p.Value ',').foldl (fun c m => { c with Match := c.Match ++ [m] }) c else c
  c

/-- The function `config`, on the stanzas the XML decoder delivers. -/
def config (stanzas : List stanza) : inputConfig :=
  stanzas.foldl (fun c s => s.Params.foldl configParam c) inputConfig.zero

/-- All parameters of a stanza list, in document order. -/
def allParams (stanzas : List stanza) : List param :=
  stanzas.flatMap stanza.Params

/-- The last parameter named `insecureSkipVerify`, in document order. -/
def lastSkipVerify (stanzas : List stanza) : Option param :=
  ((allParams stanzas).filter (fun p => p.Name = "insecureSkipVerify")).getLast?

/-- The parameters named `match`, in document order. -/
def matchParamsOf (stanzas : List stanza) : List param :=
  (allParams stanzas).filter (fun p => p.Name = "match")

/-- The literals that `strconv.ParseBool` reads as true. -/
def trueLiterals : List String :=
  ["1", "t", "T", "true", "TRUE", "True"]

/-- The literals that `strconv.ParseBool` reads as false. -/
def falseLiterals : List String :=
  ["0", "f", "F", "false", "FALSE", "False"]

/-! ## `url.Values` and the query of `run` -/

/-- Go `url.Values`, a map from a key to its list of values, as an association
list of which the first entry of a key counts. -/
abbrev Values := List (String × List String)

/-- The lookup `v[key]`, `nil` for an absent key. -/
def Values.lookup (v : Values) (key : String) : List String :=
  match v with
  | [] => []
  | (k, vs) :: rest => if k = key then vs else Values.lookup rest key

/-- Go `Values.Add`: `v[key] = append(v[key], value)`. -/
def Values.Add (v : Values) (key value : String) : Values :=
  match v with
  | [] => [(key, [value])]
  | (k, vs) :: rest =>
    if k = key then (k, vs ++ [value]) :: rest else (k, vs) :: Values.Add rest key value

/-- The bytes of the UTF-8 encoding of a character. -/
def utf8Bytes (c : Char) : List Nat :=
  let v := c.toNat
  if v < 128 then [v]
  else if v < 2048 then [192 + v / 64, 128 + v % 64]
  else if v < 65536 then [224 + v / 4096, 128 + v / 64 % 64, 128 + v % 64]
  else [240 + v / 262144, 128 + v / 4096 % 64, 128 + v / 64 % 64, 128 + v % 64]

/-- The bytes of a Go string. -/
def bytes (s : String) : List Nat :=
  s.data.flatMap utf8Bytes

/-- The order `<` of byte sequences, which is that of Go strings. -/
def bytesLess : List Nat → List Nat → Bool
  | _, [] => false
  | [], _ :: _ => true
  | a :: as, b :: bs => if a < b then true else if b < a then false else bytesLess as bs

/-- The keys of the map in the order of `sort.Strings`. -/
def Values.sortedKeys (v : Values) : List String :=
  ((v.map Prod.fst).dedup).insertionSort (fun a b => bytesLess (bytes b) (bytes a) = false)

/-- The parameters `Values.Encode` writes, in the order it writes them: keys in
sorted order, the values of one key in their order. -/
def Values.params (v : Values) : List (String × String) :=
  v.sortedKeys.flatMap (fun k => (v.lookup k).map (fun x => (k, x)))

/-- An upper-case hexadecimal digit. -/
def upperhex (n : Nat) : Char :=
  if n < 10 then Char.ofNat (48 + n) else Char.ofNat (55 + n)

/-- Go `shouldEscape(c, encodeQueryComponent)` on a byte: everything but ASCII
letters, digits and `-`, `_`, `.`, `~` is escaped. -/
def shouldEscape (c : Nat) : Bool :=
  !((97 ≤ c ∧ c ≤ 122) ∨ (65 ≤ c ∧ c ≤ 90) ∨ (48 ≤ c ∧ c ≤ 57)
    ∨ c = 45 ∨ c = 95 ∨ c = 46 ∨ c = 126)

/-- The escape of one byte in `url.QueryEscape`. -/
def escapeByte (c : Nat) : List Char :=
  if shouldEscape c then
    if c = 32 then ['+'] else ['%', upperhex (c / 16), upperhex (c % 16)]
  else [Char.ofNat c]

/-- Go `url.QueryEscape`. -/
def QueryEscape (s : String) : String :=
  String.mk ((bytes s).flatMap escapeByte)

/-- Go `Values.Encode`. -/
def Values.Encode (v : Values) : String :=
  "&".intercalate (v.params.map (fun kv => QueryEscape kv.1 ++ "=" ++ QueryEscape kv.2))

/-- Go `unhex`: the value of a hexadecimal digit. -/
def unhex (c : Char) : Option Nat :=
  let v := c.toNat
  if 48 ≤ v ∧ v ≤ 57 then some (v - 48)
  else if 97 ≤ v ∧ v ≤ 102 then some (v - 97 + 10)
  else if 65 ≤ v ∧ v ≤ 70 then some (v - 65 + 10)
  else none

/-- Go `url.QueryUnescape` on the characters of a string, giving bytes: `%XX`
is the byte `XX`, `+` is a space, and a `%` that two hexadecimal digits do not
follow is an error. -/
def unescapeChars : List Char → Option (List Nat)
  | [] => some []
  | c :: rest =>
    if c = '%' then
      match rest with
      | h :: l :: rest2 =>
        match unhex h, unhex l with
        | some a, some b => (unescapeChars rest2).map (fun bs => (16 * a + b) :: bs)
        | _, _ => none
      | _ => none
    else if c = '+' then (unescapeChars rest).map (fun bs => 32 :: bs)
    else (unescapeChars rest).map (fun bs => utf8Bytes c ++ bs)

/-- Go `strings.Cut(s, sep)` for a separator of one ASCII character: the text
before the first separator and the text after it, which is empty when there is
no separator. -/
def cut (sep : Char) : List Char → List Char × List Char
  | [] => ([], [])
  | c :: cs => if c = sep then ([], cs) else (c :: (cut sep cs).1, (cut sep cs).2)

/-- The key and value that `url.ParseQuery` reads from one piece of a query
string, as bytes; a piece that is empty, holds a semicolon or does not unescape
is passed over. -/
def parsePair (piece : List Char) : Option (List Nat × List Nat) :=
  if ';' ∈ piece then none
  else if piece = [] then none
  else
    match unescapeChars (cut '=' piece).1, unescapeChars (cut '=' piece).2 with
    | some k, some v => some (k, v)
    | _, _ => none

/-- The keys and values that Go `url.ParseQuery` reads from a query string, in
the order of the string, as bytes. -/
def ParseQuery (query : String) : List (List Nat × List Nat) :=
  (splitChars '&' [] query.data).filterMap parsePair

/-- The values `run` holds in `q` after its loop over `inputConfig.Match`, from
`q0`, the result of `req.URL.Query()` on the configured URI. -/
def addMatches (q0 : Values) (Match : List String) : Values :=
  Match.foldl (fun q m => Values.Add q "match[]" m) q0

/-- The `RawQuery` that `run` gives the request. -/
def RawQuery (q0 : Values) (Match : List String) : String :=
  (addMatches q0 Match).Encode

/-- The values of the parameters named `match[]` in a parameter sequence. -/
def matchParams (ps : List (String × String)) : List String :=
  (ps.filter (fun kv => kv.1 = "match[]")).map Prod.snd

/-! ## `main` -/

/-- What a run of `main` does, as seen from outside. -/
inductive Effect
  | println (s : String)
  | run
  deriving DecidableEq

/-- The function `doScheme`. -/
def doScheme : String :=
"<scheme>
      <title>Prometheus</title>
      <description>Scrapes a Prometheus endpoint, either directly or via Prometheus federation</description>
      <use_external_validation>false</use_external_validation>
      <streaming_mode>simple</streaming_mode>
      <use_single_instance>false</use_single_instance>
      <endpoint>
          <arg name=\"URI\">
            <title>Metrics URI</title>
            <description>A Prometheus exporter endpoint</description>
            <required_on_edit>true</required_on_edit>
            <required_on_create>true</required_on_create>
          </arg>
\t\t\t\t\t<arg name=\"match\">
\t\t\t\t\t\t<title>Match filter</title>
\t\t\t\t\t\t<description>A comma-delimited list of Prometheus \"match\" expressions: only functional and required for /federate endpoints</description>
\t\t\t\t\t\t<required_on_edit>false</required_on_edit>
\t\t\t\t\t\t<required_on_create>false</required_on_create>
\t\t\t\t\t</arg>
\t\t\t\t\t<arg name=\"insecureSkipVerify\">
\t\t\t\t\t\t<title>Skip certificate verification</title>
\t\t\t\t\t\t<description>If the endpoint is HTTPS, this setting controls whether to skip verification of the server certificate or not</description>
\t\t\t\t\t\t<required_on_edit>false</required_on_edit>
\t\t\t\t\t\t<required_on_create>false</required_on_create>
\t\t\t\t\t</arg>
      </endpoint>
    </scheme>"

/-- The function `validateArguments`: it does nothing. -/
def validateArguments : List Effect :=
  []

/-- The function `main` on `os.Args`, the program name included. -/
def main (osArgs : List String) : List Effect :=
  if osArgs.length > 1 then
    if osArgs.get? 1 = some "--scheme" then
      [Effect.println (doScheme ++ "\n")]
    else if osArgs.get? 1 = some "--validate-arguments" then
      validateArguments
    else []
  else
    [Effect.run]

/-! ### Lemmas on the loop -/

theorem loop_append (st : LoopState) (xs ys : List NextResult) :
    loop st (xs ++ ys) = loop (loop st xs) ys := by
  induction xs generalizing st with
  | nil => rfl
  | cons r rest ih => simp [loop, ih]

theorem step_output (st : LoopState) (r : NextResult) :
    (step st r).output = st.output ++ (step { now := st.now, output := [] } r).output := by
  cases r with
  | err => simp [step]
  | entry et s =>
    simp only [step]
    split_ifs <;> simp

theorem step_now (st : LoopState) (r : NextResult) (out : List String) :
    (step { now := st.now, output := out } r).now = (step st r).now := by
  cases r with
  | err => simp [step]
  | entry et s =>
    simp only [step]
    split_ifs <;> simp

theorem loop_output (st : LoopState) (rs : List NextResult) :
    (loop st rs).output = st.output ++ transform st.now rs := by
  induction rs generalizing st with
  | nil => simp [loop, transform]
  | cons r rest ih =>
    simp only [loop, transform]
    rw [ih (step st r), ih (step _ r), step_output st r, step_now st r []]
    simp [transform]

theorem transform_cons (now : Int) (r : NextResult) (rest : List NextResult) :
    transform now (r :: rest)
      = (step { now := now, output := [] } r).output
        ++ transform (step { now := now, output := [] } r).now rest := by
  simp only [transform, loop]
  rw [loop_output]
  rfl

theorem loop_filter (keep : NextResult → Bool)
    (h : ∀ st r, keep r = false → step st r = st) (st : LoopState) (rs : List NextResult) :
    loop st rs = loop st (rs.filter keep) := by
  induction rs generalizing st with
  | nil => rfl
  | cons r rest ih =>
    cases hk : keep r with
    | true => simp [List.filter, hk, loop, ih]
    | false => simp [List.filter, hk, loop, h st r hk, ih]

/-! ### Lemmas on the formatting -/

theorem round_near (num den : Nat) (hden : 0 < den) :
    2 * (if den < 2 * (num % den) ∨ (2 * (num % den) = den ∧ num / den % 2 = 1)
            then num / den + 1 else num / den) * den ≤ 2 * num + den
    ∧ 2 * num ≤ 2 * (if den < 2 * (num % den) ∨ (2 * (num % den) = den ∧ num / den % 2 = 1)
            then num / den + 1 else num / den) * den + den := by
  have h := Nat.div_add_mod num den
  have hlt := Nat.mod_lt num hden
  split_ifs with hc
  · have e : 2 * (num / den + 1) * den = 2 * (den * (num / den)) + 2 * den := by ring
    rw [e]
    rcases hc with hc | hc <;> omega
  · have e : 2 * (num / den) * den = 2 * (den * (num / den)) := by ring
    rw [e]
    have hc1 : ¬ den < 2 * (num % den) := fun h1 => hc (Or.inl h1)
    omega

theorem scaled6_near (f : Float64) :
    |(f.scaled6 : ℚ) / 1000000 - f.magnitude| ≤ 1 / 2000000 := by
  have hr := round_near (f.mant * 2 ^ f.binShift * 1000000) (2 ^ f.binPlaces) (by positivity)
  have hN : f.scaled6 = (if 2 ^ f.binPlaces < 2 * (f.mant * 2 ^ f.binShift * 1000000 % 2 ^ f.binPlaces)
      ∨ (2 * (f.mant * 2 ^ f.binShift * 1000000 % 2 ^ f.binPlaces) = 2 ^ f.binPlaces
        ∧ f.mant * 2 ^ f.binShift * 1000000 / 2 ^ f.binPlaces % 2 = 1)
      then f.mant * 2 ^ f.binShift * 1000000 / 2 ^ f.binPlaces + 1
      else f.mant * 2 ^ f.binShift * 1000000 / 2 ^ f.binPlaces) := rfl
  rw [← hN] at hr
  obtain ⟨h1, h2⟩ := hr
  have h1q : (2 * (f.scaled6 : ℚ) * 2 ^ f.binPlaces)
      ≤ 2 * ((f.mant : ℚ) * 2 ^ f.binShift * 1000000) + 2 ^ f.binPlaces := by
    exact_mod_cast h1
  have h2q : 2 * ((f.mant : ℚ) * 2 ^ f.binShift * 1000000)
      ≤ 2 * (f.scaled6 : ℚ) * 2 ^ f.binPlaces + 2 ^ f.binPlaces := by
    exact_mod_cast h2
  have hd : (0 : ℚ) < 2 ^ f.binPlaces := by positivity
  have key : (f.scaled6 : ℚ) / 1000000 - f.magnitude
      = ((f.scaled6 : ℚ) * 2 ^ f.binPlaces - (f.mant : ℚ) * 2 ^ f.binShift * 1000000)
        / (1000000 * 2 ^ f.binPlaces) := by
    unfold Float64.magnitude
    field_simp
    ring
  rw [key, abs_le]
  constructor
  · rw [le_div_iff₀ (by positivity)]
    linarith
  · rw [div_le_iff₀ (by positivity)]
    linarith

theorem frac6_digits (m : Nat) (hm : m < 1000000) :
    frac6 m = ([m / 100000 % 10, m / 10000 % 10, m / 1000 % 10, m / 100 % 10, m / 10 % 10,
        m % 10]).map Nat.digitChar
    ∧ Nat.ofDigits 10 ([m / 100000 % 10, m / 10000 % 10, m / 1000 % 10, m / 100 % 10,
        m / 10 % 10, m % 10]).reverse = m := by
  constructor
  · simp [frac6, digitChar]
  · simp [Nat.ofDigits]
    omega

theorem fmtD_eq_toString (t : Int) : fmtD t = toString t := by
  cases t <;> rfl

/-! ### Lemmas on the carry-forward rule -/

theorem getLast?_cons_getD (t s : Int) (l : List Int) :
    ((t :: l).getLast?).getD s = (l.getLast?).getD t := by
  cases l with
  | nil => simp
  | cons a l =>
    rw [List.getLast?_cons_cons]
    rw [List.getLast?_eq_getLast _ (List.cons_ne_nil a l)]
    simp

theorem carriedAt_zero (s : Int) (x : Series) (xs : List Series) :
    carriedAt s (x :: xs) 0 = x.ts.getD s := by
  unfold carriedAt
  cases h : x.ts <;> simp [List.filterMap_cons, h]

theorem carriedAt_succ (s : Int) (x : Series) (xs : List Series) (i : Nat) :
    carriedAt s (x :: xs) (i + 1) = carriedAt (x.ts.getD s) xs i := by
  unfold carriedAt
  cases h : x.ts with
  | none => simp [List.filterMap_cons, h]
  | some t =>
    simp only [List.take_succ_cons, List.filterMap_cons, h, Option.getD_some]
    exact getLast?_cons_getD t s _

theorem carried_cons (s : Int) (x : Series) (xs : List Series) :
    carried s (x :: xs) = x.ts.getD s :: carried (x.ts.getD s) xs := by
  unfold carried
  rw [List.length_cons, List.range_succ_eq_map, List.map_cons, List.map_map, carriedAt_zero]
  congr 1
  apply List.map_congr_left
  intro i _
  exact carriedAt_succ s x xs i

theorem step_series_finite (st : LoopState) (x : Series) (hx : finite x.val) :
    step st (NextResult.entry Entry.EntrySeries x)
      = { now := x.ts.getD st.now, output := st.output ++ [Sprintf x.b x.val (x.ts.getD st.now)] } := by
  obtain ⟨h1, h2⟩ := hx
  cases h : x.ts <;> simp [step, h1, h2, h]

theorem step_series_dropped (st : LoopState) (x : Series) (hx : ¬ finite x.val) :
    step st (NextResult.entry Entry.EntrySeries x)
      = { now := x.ts.getD st.now, output := st.output } := by
  have hx1 : (x.val.IsNaN || x.val.IsInf) = true := by
    unfold finite at hx
    cases h1 : x.val.IsNaN <;> cases h2 : x.val.IsInf <;> simp_all
  cases h : x.ts <;> simp [step, hx1, h]

theorem step_other (st : LoopState) (et : Entry) (x : Series) (h : et ≠ Entry.EntrySeries) :
    step st (NextResult.entry et x) = st := by
  simp [step, h]

/-! ### Lemmas on the loop over a parser -/

theorem runLoop_eof (p : Parser) (k : Nat) :
    ∀ (i : Nat) (st : LoopState) (fuel : Nat),
      (∀ j, j < k → p (i + j) ≠ none) → p (i + k) = none → k < fuel →
      runLoop p fuel i st = some (loop st ((List.range' i k).filterMap p)) := by
  induction k with
  | zero =>
    intro i st fuel _ heof hf
    cases fuel with
    | zero => omega
    | succ f =>
      have h0 : p i = none := by simpa using heof
      simp [runLoop, h0, loop]
  | succ k ih =>
    intro i st fuel hpre heof hf
    cases fuel with
    | zero => omega
    | succ f =>
      have h0 : p i ≠ none := by simpa using hpre 0 (Nat.succ_pos k)
      obtain ⟨r, hr⟩ := Option.ne_none_iff_exists'.1 h0
      have hpre1 : ∀ j, j < k → p (i + 1 + j) ≠ none := by
        intro j hj
        have h := hpre (j + 1) (by omega)
        rwa [show i + (j + 1) = i + 1 + j by omega] at h
      have heof1 : p (i + 1 + k) = none := by
        rwa [show i + (k + 1) = i + 1 + k by omega] at heof
      rw [runLoop, hr]
      simp only
      rw [ih (i + 1) (step st r) f hpre1 heof1 (by omega)]
      simp [List.range'_succ, List.filterMap_cons, hr, loop]

theorem runLoop_running (p : Parser) :
    ∀ (fuel i : Nat) (st : LoopState), (∀ j, j < fuel → p (i + j) ≠ none) →
      runLoop p fuel i st = none := by
  intro fuel
  induction fuel with
  | zero => intro i st _; rfl
  | succ f ih =>
    intro i st hpre
    have h0 : p i ≠ none := by simpa using hpre 0 (Nat.succ_pos f)
    obtain ⟨r, hr⟩ := Option.ne_none_iff_exists'.1 h0
    rw [runLoop, hr]
    simp only
    apply ih
    intro j hj
    have h := hpre (j + 1) (by omega)
    rwa [show i + (j + 1) = i + 1 + j by omega] at h

theorem runLoop_results (p : Parser) (n : Nat) (st : LoopState)
    (hpre : ∀ i, i < n → p i ≠ none) (heof : p n = none) (fuel : Nat) (hf : n < fuel) :
    runLoop p fuel 0 st = some (loop st (results p n)) := by
  have h := runLoop_eof p n 0 st fuel (by simpa using hpre) (by simpa using heof) hf
  rw [h, results, List.range_eq_range']

theorem results_ofList (l : List NextResult) :
    ∀ i, (List.range' i l.length).filterMap (fun j => l.get? (j - i)) = l := by
  induction l with
  | nil => intro i; rfl
  | cons r l ih =>
    intro i
    rw [List.length_cons, List.range'_succ, List.filterMap_cons]
    simp only [Nat.sub_self, List.get?_cons_zero]
    congr 1
    refine Eq.trans ?_ (ih (i + 1))
    apply List.filterMap_congr
    intro j hj
    have hj1 : i + 1 ≤ j := (List.mem_range'_1.1 hj).1
    rw [show j - i = (j - (i + 1)) + 1 by omega, List.get?_cons_succ]

theorem ofList_spec (l : List NextResult) :
    (∀ i, i < l.length → ofList l i ≠ none) ∧ ofList l l.length = none
      ∧ results (ofList l) l.length = l := by
  refine ⟨?_, ?_, ?_⟩
  · intro i hi
    rw [ofList, List.get?_eq_get hi]
    simp
  · simp [ofList]
  · have h := results_ofList l 0
    simp only [Nat.sub_zero] at h
    rw [results, List.range_eq_range']
    exact h

theorem runLoop_ofList (l : List NextResult) (st : LoopState) (fuel : Nat)
    (hf : l.length < fuel) : runLoop (ofList l) fuel 0 st = some (loop st l) := by
  obtain ⟨h1, h2, h3⟩ := ofList_spec l
  rw [runLoop_results (ofList l) l.length st h1 h2 fuel hf, h3]

theorem errForever_ne_none (l : List NextResult) (i : Nat) : errForever l i ≠ none := by
  unfold errForever
  cases l.get? i <;> simp

theorem runLoop_errForever (l : List NextResult) (st : LoopState) (fuel : Nat) :
    runLoop (errForever l) fuel 0 st = none :=
  runLoop_running (errForever l) fuel 0 st (fun j _ => errForever_ne_none l (0 + j))

/-! ### Lemmas on records and lines -/

theorem digitChar_ne_newline : ∀ d, d < 10 → Nat.digitChar d ≠ '\n' := by
  decide

theorem toDigitsCore_no_newline :
    ∀ (fuel n : Nat) (ds : List Char), '\n' ∉ ds → '\n' ∉ Nat.toDigitsCore 10 fuel n ds := by
  intro fuel
  induction fuel with
  | zero => intro n ds h; simpa [Nat.toDigitsCore] using h
  | succ f ih =>
    intro n ds h
    have hd : '\n' ∉ Nat.digitChar (n % 10) :: ds := by
      simp only [List.mem_cons, not_or]
      exact ⟨fun e => digitChar_ne_newline (n % 10) (Nat.mod_lt _ (by norm_num)) e.symm, h⟩
    unfold Nat.toDigitsCore
    simp only
    split_ifs
    · exact hd
    · exact ih _ _ hd

theorem repr_no_newline (n : Nat) : '\n' ∉ (Nat.repr n).data := by
  unfold Nat.repr Nat.toDigits
  exact toDigitsCore_no_newline _ _ _ (by simp)

theorem fmtF_no_newline (v : Float64) : '\n' ∉ (fmtF v).data := by
  unfold fmtF
  have h1 := repr_no_newline (v.scaled6 / 1000000)
  have h2 : '\n' ∉ frac6 (v.scaled6 % 1000000) := by
    unfold frac6 digitChar
    simp only [List.mem_cons, List.mem_singleton, List.not_mem_nil, or_false, not_or]
    refine ⟨?_, ?_, ?_, ?_, ?_, ?_⟩ <;>
      exact fun e => digitChar_ne_newline _ (Nat.mod_lt _ (by norm_num)) e.symm
  cases v.sign <;> simp [String.data_append, h1, h2]

theorem fmtD_no_newline (t : Int) : '\n' ∉ (fmtD t).data := by
  cases t with
  | ofNat n => exact repr_no_newline n
  | negSucc n =>
    have h := repr_no_newline (n + 1)
    simp [fmtD, String.data_append, h]

theorem record_data (b : String) (v : Float64) (t : Int) :
    (b ++ " " ++ fmtF v ++ " " ++ fmtD t ++ "\n").data
      = b.data ++ (' ' :: (fmtF v).data ++ ' ' :: (fmtD t).data) ++ ['\n'] := by
  simp [String.data_append]

theorem record_lines (b : String) (v : Float64) (t : Int) :
    (b ++ " " ++ fmtF v ++ " " ++ fmtD t ++ "\n").data.count '\n' = b.data.count '\n' + 1
      ∧ (b ++ " " ++ fmtF v ++ " " ++ fmtD t ++ "\n").data.getLast? = some '\n' := by
  rw [record_data]
  have h1 : (' ' :: (fmtF v).data ++ ' ' :: (fmtD t).data).count '\n' = 0 := by
    apply List.count_eq_zero.2
    intro hm
    rcases List.mem_append.1 hm with h | h
    · rcases List.mem_cons.1 h with h | h
      · exact absurd h (by decide)
      · exact fmtF_no_newline v h
    · rcases List.mem_cons.1 h with h | h
      · exact absurd h (by decide)
      · exact fmtD_no_newline t h
  constructor
  · rw [List.count_append, List.count_append, h1]
    simp
  · rw [List.getLast?_concat]

theorem chars_lines (out : List String) (h : ∀ line ∈ out, line.data.count '\n' = 1) :
    (chars out).count '\n' = out.length := by
  induction out with
  | nil => rfl
  | cons a l ih =>
    have ha := h a (List.mem_cons_self a l)
    have hl := ih (fun x hx => h x (List.mem_cons_of_mem a hx))
    unfold chars at hl ⊢
    rw [List.flatMap_cons, List.count_append, ha, hl, List.length_cons]
    omega

theorem transform_eq (s : Int) (rs : List NextResult) :
    transform s rs
      = (((seriesOf rs).zip (carried s (seriesOf rs))).filter
          (fun xt => decide (finite xt.1.val))).map
          (fun xt => xt.1.b ++ " " ++ fmtF xt.1.val ++ " " ++ fmtD xt.2 ++ "\n") := by
  induction rs generalizing s with
  | nil => rfl
  | cons r rest ih =>
    rw [transform_cons]
    cases r with
    | err => exact ih s
    | entry et x =>
      by_cases he : et = Entry.EntrySeries
      · subst he
        by_cases hx : finite x.val
        · rw [step_series_finite _ x hx]
          simp only [seriesOf, if_true, carried_cons, List.zip_cons_cons, List.filter_cons, hx,
            decide_True, List.map_cons, List.nil_append, List.singleton_append]
          rw [ih]
          rfl
        · rw [step_series_dropped _ x hx]
          simp only [seriesOf, if_true, carried_cons, List.zip_cons_cons, List.filter_cons, hx,
            decide_False, List.nil_append]
          exact ih _
      · rw [step_other _ et x he]
        simp only [seriesOf, he, if_false, List.nil_append]
        exact ih s

theorem transform_forall₂ (s : Int) (rs : List NextResult) :
    List.Forall₂
      (fun line x => ∃ t : Int, line = x.b ++ " " ++ fmtF x.val ++ " " ++ fmtD t ++ "\n")
      (transform s rs) ((seriesOf rs).filter (fun x => decide (finite x.val))) := by
  induction rs generalizing s with
  | nil => exact List.Forall₂.nil
  | cons r rest ih =>
    rw [transform_cons]
    cases r with
    | err => exact ih s
    | entry et x =>
      by_cases he : et = Entry.EntrySeries
      · subst he
        by_cases hx : finite x.val
        · rw [step_series_finite _ x hx]
          simp only [seriesOf, if_true, List.filter_cons, hx, decide_True, List.nil_append,
            List.singleton_append]
          exact List.Forall₂.cons ⟨_, rfl⟩ (ih _)
        · rw [step_series_dropped _ x hx]
          simp only [seriesOf, if_true, List.filter_cons, hx, decide_False, List.nil_append]
          exact ih _
      · rw [step_other _ et x he]
        simp only [seriesOf, he, if_false, List.nil_append]
        exact ih s

/-! ## The transform loop: claims -/

/-- C1: in the transform loop, for every loop state, a series sample with
label-set text `b`, a value `v` that is neither NaN nor infinite and an explicit
timestamp `t` appends exactly one record, which is `b`, a space, `v` in
fixed-point notation, a space, `t` in decimal and a newline, `b` being copied
as it is. The fixed-point text is an optional minus sign, the integer part, a
point and exactly six decimal digits, and the number it denotes is within half
a unit of the sixth place of the magnitude of `v`. -/
theorem series_record_format (st : LoopState) (b : String) (v : Float64) (t : Int)
    (hv : finite v) :
    step st (NextResult.entry Entry.EntrySeries { b := b, ts := some t, val := v })
        = { now := t, output := st.output ++ [b ++ " " ++ fmtF v ++ " " ++ fmtD t ++ "\n"] }
      ∧ fmtD t = toString t
      ∧ ∃ (ip : Nat) (ds : List Nat), ds.length = 6 ∧ (∀ d ∈ ds, d < 10)
          ∧ fmtF v = (if v.sign then "-" else "") ++ Nat.repr ip ++ "."
              ++ String.mk (ds.map Nat.digitChar)
          ∧ |((ip : ℚ) + ((Nat.ofDigits 10 ds.reverse : Nat) : ℚ) / 1000000) - v.magnitude|
              ≤ 1 / 2000000 := by
  refine ⟨?_, fmtD_eq_toString t, ?_⟩
  · rw [step_series_finite st _ hv]
    rfl
  · have hm : v.scaled6 % 1000000 < 1000000 := Nat.mod_lt _ (by norm_num)
    obtain ⟨hf, ho⟩ := frac6_digits (v.scaled6 % 1000000) hm
    refine ⟨v.scaled6 / 1000000, [v.scaled6 % 1000000 / 100000 % 10,
        v.scaled6 % 1000000 / 10000 % 10, v.scaled6 % 1000000 / 1000 % 10,
        v.scaled6 % 1000000 / 100 % 10, v.scaled6 % 1000000 / 10 % 10,
        v.scaled6 % 1000000 % 10], ?_, ?_, ?_, ?_⟩
    · rfl
    · intro d hd
      simp only [List.mem_cons, List.mem_singleton, List.not_mem_nil, or_false] at hd
      rcases hd with h | h | h | h | h | h <;> rw [h] <;> exact Nat.mod_lt _ (by norm_num)
    · unfold fmtF
      rw [hf]
    · rw [ho]
      have hsplit : ((v.scaled6 / 1000000 : Nat) : ℚ) + ((v.scaled6 % 1000000 : Nat) : ℚ) / 1000000
          = (v.scaled6 : ℚ) / 1000000 := by
        have h := Nat.div_add_mod v.scaled6 1000000
        have hq : ((1000000 * (v.scaled6 / 1000000) + v.scaled6 % 1000000 : Nat) : ℚ)
            = (v.scaled6 : ℚ) := by rw [h]
        push_cast at hq
        field_simp
        linarith
      rw [hsplit]
      exact scaled6_near v

/-- C1, at the sample `http_requests_total{method="GET"} 1027 1600000000000`:
the record is `http_requests_total{method="GET"} 1027.000000 1600000000000`
and a newline. -/
theorem series_record_format_witness :
    finite { sign := false, exponent := 1033, fraction := 13194139533312 }
      ∧ step { now := 0, output := [] }
          (NextResult.entry Entry.EntrySeries
            { b := "http_requests_total\x7bmethod=\"GET\"\x7d", ts := some 1600000000000,
              val := { sign := false, exponent := 1033, fraction := 13194139533312 } })
        = { now := 1600000000000,
            output := ["http_requests_total\x7bmethod=\"GET\"\x7d 1027.000000 1600000000000\n"] } :=
  ⟨by decide,
   (series_record_format { now := 0, output := [] } "http_requests_total\x7bmethod=\"GET\"\x7d"
      { sign := false, exponent := 1033, fraction := 13194139533312 } 1600000000000
      (by decide)).1.trans (by decide)⟩

/-- C2: for every scrape-start time `s` and every result list whose series
samples all have values that are neither NaN nor infinite, the records are
those of the series samples in scan order, the `i`-th with the last explicit
timestamp among the samples up to and including the `i`-th, or with `s` when
none of them has one; the label-set text plays no part in the timestamp. -/
theorem timestamps_carried_forward (s : Int) (rs : List NextResult)
    (hfin : ∀ x ∈ seriesOf rs, finite x.val) :
    transform s rs
      = List.zipWith (fun x t => Sprintf x.b x.val t) (seriesOf rs) (carried s (seriesOf rs)) := by
  induction rs generalizing s with
  | nil => rfl
  | cons r rest ih =>
    rw [transform_cons]
    cases r with
    | err => exact ih s hfin
    | entry et x =>
      by_cases he : et = Entry.EntrySeries
      · subst he
        have hx : finite x.val := hfin x (by simp [seriesOf])
        have hrest : ∀ y ∈ seriesOf rest, finite y.val := fun y hy =>
          hfin y (by simp [seriesOf, hy])
        rw [step_series_finite _ x hx]
        simp only [seriesOf, if_true, carried_cons, List.zipWith_cons_cons, List.nil_append,
          List.singleton_append]
        rw [ih _ hrest]
      · have hrest : ∀ y ∈ seriesOf rest, finite y.val := fun y hy =>
          hfin y (by simp [seriesOf, he, hy])
        rw [step_other _ et x he]
        simp only [seriesOf, he, if_false, List.nil_append]
        exact ih s hrest

/-- C2, at the samples `up 1`, `up 0 1600000005000`, `down 1` of a scrape
started at 1599999999000: the timestamps are 1599999999000, 1600000005000 and
1600000005000. -/
theorem timestamps_carried_forward_witness :
    transform 1599999999000
        [NextResult.entry Entry.EntrySeries
           { b := "up", ts := none, val := { sign := false, exponent := 1023, fraction := 0 } },
         NextResult.entry Entry.EntrySeries
           { b := "up", ts := some 1600000005000,
             val := { sign := false, exponent := 0, fraction := 0 } },
         NextResult.entry Entry.EntrySeries
           { b := "down", ts := none, val := { sign := false, exponent := 1023, fraction := 0 } }]
      = ["up 1.000000 1599999999000\n", "up 0.000000 1600000005000\n",
         "down 1.000000 1600000005000\n"] :=
  (timestamps_carried_forward 1599999999000 _ (by decide)).trans (by decide)

/-- C3, as stated, fails: from the carry-forward value 5, a NaN sample with the
explicit timestamp 7 leaves the carry-forward value at 7, and the sample `up 1`
without a timestamp that follows it is written with 7, not with 5. -/
theorem dropped_sample_keeps_carry_refuted :
    (step { now := 5, output := [] }
        (NextResult.entry Entry.EntrySeries
          { b := "up", ts := some 7,
            val := { sign := false, exponent := 2047, fraction := 2251799813685248 } })).now = 7
      ∧ (7 : Int) ≠ 5
      ∧ transform 5
          [NextResult.entry Entry.EntrySeries
             { b := "up", ts := some 7,
               val := { sign := false, exponent := 2047, fraction := 2251799813685248 } },
           NextResult.entry Entry.EntrySeries
             { b := "up", ts := none,
               val := { sign := false, exponent := 1023, fraction := 0 } }]
        = ["up 1.000000 7\n"]
      ∧ "up 1.000000 7\n" ≠ "up 1.000000 5\n" := by
  decide

/-- C3, amended: in the transform loop, for every carry-forward value `c`, a
series sample whose value is NaN or an infinity writes no record; it leaves the
carry-forward value at `c` when it has no timestamp and sets it to its own
timestamp when it has one, so a sample without a timestamp whose value is
neither NaN nor infinite and that follows it is written with that value. -/
theorem dropped_sample_sets_carry (st : LoopState) (b : String) (ts : Option Int)
    (v : Float64) (hv : ¬ finite v) (b1 : String) (v1 : Float64) (hv1 : finite v1) :
    step st (NextResult.entry Entry.EntrySeries { b := b, ts := ts, val := v })
        = { now := ts.getD st.now, output := st.output }
      ∧ step (step st (NextResult.entry Entry.EntrySeries { b := b, ts := ts, val := v }))
          (NextResult.entry Entry.EntrySeries { b := b1, ts := none, val := v1 })
        = { now := ts.getD st.now,
            output := st.output ++ [Sprintf b1 v1 (ts.getD st.now)] } := by
  have h1 := step_series_dropped st { b := b, ts := ts, val := v } hv
  refine ⟨h1, ?_⟩
  rw [h1, step_series_finite _ { b := b1, ts := none, val := v1 } hv1]
  rfl

/-- C3, amended, at a NaN sample with timestamp 7 met with the carry-forward
value 5, followed by `up 1`. -/
theorem dropped_sample_sets_carry_witness :
    ¬ finite { sign := false, exponent := 2047, fraction := 2251799813685248 }
      ∧ finite { sign := false, exponent := 1023, fraction := 0 }
      ∧ step (step { now := 5, output := [] }
            (NextResult.entry Entry.EntrySeries
              { b := "up", ts := some 7,
                val := { sign := false, exponent := 2047, fraction := 2251799813685248 } }))
          (NextResult.entry Entry.EntrySeries
            { b := "up", ts := none, val := { sign := false, exponent := 1023, fraction := 0 } })
        = { now := 7, output := ["up 1.000000 7\n"] } :=
  ⟨by decide, by decide,
   (dropped_sample_sets_carry { now := 5, output := [] } "up" (some 7)
      { sign := false, exponent := 2047, fraction := 2251799813685248 } (by decide) "up"
      { sign := false, exponent := 1023, fraction := 0 } (by decide)).2.trans (by decide)⟩

/-- C4, as stated, fails, in two ways. On the stream that has the sample `a 1 1`
and then a line-level error at every call, the loop never returns, so the one
sample with a value that is neither NaN nor infinite has no emitted record. And
the sample `up{a="x\ny"} 1`, whose label-set text holds a newline, has one
record that stands on two output lines. -/
theorem records_follow_scan_order_refuted :
    (¬ ∃ fuel, (emitted (errForever [NextResult.entry Entry.EntrySeries
          { b := "a", ts := some 1,
            val := { sign := false, exponent := 1023, fraction := 0 } }]) 0 fuel).isSome = true)
      ∧ (seriesOf [NextResult.entry Entry.EntrySeries
            { b := "a", ts := some 1,
              val := { sign := false, exponent := 1023, fraction := 0 } }]).filter
            (fun x => decide (finite x.val))
          = [{ b := "a", ts := some 1,
               val := { sign := false, exponent := 1023, fraction := 0 } }]
      ∧ emitted (ofList [NextResult.entry Entry.EntrySeries
            { b := "up\x7ba=\"x\ny\"\x7d", ts := none,
              val := { sign := false, exponent := 1023, fraction := 0 } }]) 5 2
          = some ["up\x7ba=\"x\ny\"\x7d 1.000000 5\n"]
      ∧ (chars ["up\x7ba=\"x\ny\"\x7d 1.000000 5\n"]).count '\n' = 2 := by
  refine ⟨?_, by decide, by decide, by decide⟩
  rintro ⟨fuel, h⟩
  unfold emitted at h
  rw [runLoop_errForever] at h
  exact absurd h (by decide)

/-- C4, amended: for every entry stream on which the parser first reports end
of input at its call `n`, the loop returns, and the emitted records are those
of the series samples before the end of input whose value is neither NaN nor
an infinity, in scan order with duplicates kept: such a sample has exactly one
record, which is its label-set text, a space, its value, a space, the
carried-forward timestamp and a newline, a sample with a NaN or infinite value
has none, and nothing is reordered or dropped. When no label-set text of these
samples holds a newline, every record is one output line and there are as many
output lines as such samples. -/
theorem records_follow_scan_order (p : Parser) (n : Nat) (s : Int)
    (hpre : ∀ i, i < n → p i ≠ none) (heof : p n = none) :
    (∀ fuel, n < fuel → emitted p s fuel = some (transform s (results p n)))
      ∧ transform s (results p n)
          = (((seriesOf (results p n)).zip (carried s (seriesOf (results p n)))).filter
              (fun xt => decide (finite xt.1.val))).map
              (fun xt => xt.1.b ++ " " ++ fmtF xt.1.val ++ " " ++ fmtD xt.2 ++ "\n")
      ∧ List.Forall₂
          (fun line x => ∃ t : Int, line = x.b ++ " " ++ fmtF x.val ++ " " ++ fmtD t ++ "\n")
          (transform s (results p n))
          ((seriesOf (results p n)).filter (fun x => decide (finite x.val)))
      ∧ (transform s (results p n)).length
          = ((seriesOf (results p n)).filter (fun x => decide (finite x.val))).length
      ∧ ((∀ x ∈ (seriesOf (results p n)).filter (fun x => decide (finite x.val)),
            '\n' ∉ x.b.data) →
          (∀ line ∈ transform s (results p n),
              line.data.count '\n' = 1 ∧ line.data.getLast? = some '\n')
            ∧ (chars (transform s (results p n))).count '\n'
                = ((seriesOf (results p n)).filter (fun x => decide (finite x.val))).length) := by
  have hF := transform_forall₂ s (results p n)
  refine ⟨?_, transform_eq s (results p n), hF, hF.length_eq, ?_⟩
  · intro fuel hf
    unfold emitted
    rw [runLoop_results p n _ hpre heof fuel hf]
    rfl
  · intro hnl
    have hlines : ∀ line ∈ transform s (results p n),
        line.data.count '\n' = 1 ∧ line.data.getLast? = some '\n' := by
      revert hnl hF
      generalize transform s (results p n) = out
      generalize (seriesOf (results p n)).filter (fun x => decide (finite x.val)) = ks
      intro hF
      induction hF with
      | nil => intro _ line hl; cases hl
      | @cons a x l1 l2 hab _ ih =>
        intro hnl line hl
        rcases List.mem_cons.1 hl with h | h
        · obtain ⟨t, ht⟩ := hab
          have hb := hnl x (List.mem_cons_self x l2)
          obtain ⟨hr, hr2⟩ := record_lines x.b x.val t
          rw [h, ht]
          refine ⟨?_, hr2⟩
          rw [hr, List.count_eq_zero.2 hb]
        · exact ih (fun y hy => hnl y (List.mem_cons_of_mem x hy)) line h
    refine ⟨hlines, ?_⟩
    rw [chars_lines _ (fun line hl => (hlines line hl).1)]
    exact hF.length_eq

/-- C4, amended, at the stream `a 1 1`, a NaN sample `x`, a line-level error,
`a 1`, end of input: two records, both of `a`, in this order. -/
theorem records_follow_scan_order_witness :
    (∀ i, i < 4 → ofList [NextResult.entry Entry.EntrySeries
          { b := "a", ts := some 1, val := { sign := false, exponent := 1023, fraction := 0 } },
        NextResult.entry Entry.EntrySeries
          { b := "x", ts := none,
            val := { sign := false, exponent := 2047, fraction := 2251799813685248 } },
        NextResult.err,
        NextResult.entry Entry.EntrySeries
          { b := "a", ts := none,
            val := { sign := false, exponent := 1023, fraction := 0 } }] i ≠ none)
      ∧ ofList [NextResult.entry Entry.EntrySeries
          { b := "a", ts := some 1, val := { sign := false, exponent := 1023, fraction := 0 } },
        NextResult.entry Entry.EntrySeries
          { b := "x", ts := none,
            val := { sign := false, exponent := 2047, fraction := 2251799813685248 } },
        NextResult.err,
        NextResult.entry Entry.EntrySeries
          { b := "a", ts := none,
            val := { sign := false, exponent := 1023, fraction := 0 } }] 4 = none
      ∧ emitted (ofList [NextResult.entry Entry.EntrySeries
          { b := "a", ts := some 1, val := { sign := false, exponent := 1023, fraction := 0 } },
        NextResult.entry Entry.EntrySeries
          { b := "x", ts := none,
            val := { sign := false, exponent := 2047, fraction := 2251799813685248 } },
        NextResult.err,
        NextResult.entry Entry.EntrySeries
          { b := "a", ts := none,
            val := { sign := false, exponent := 1023, fraction := 0 } }]) 0 5
        = some ["a 1.000000 1\n", "a 1.000000 1\n"] :=
  ⟨by decide, by decide,
   ((records_follow_scan_order _ 4 0 (by decide) (by decide)).1 5 (by decide)).trans
     (by decide)⟩

/-- C5, as stated, fails: on the stream that has the sample `a 1 1` and then a
line-level error at every call, the loop never returns and so nothing is
emitted, while the same stream without its error items, the sample `a 1 1`
alone, gives the record of `a`. -/
theorem errors_are_skipped_refuted :
    (¬ ∃ fuel, (emitted (errForever [NextResult.entry Entry.EntrySeries
          { b := "a", ts := some 1,
            val := { sign := false, exponent := 1023, fraction := 0 } }]) 0 fuel).isSome = true)
      ∧ errForever [NextResult.entry Entry.EntrySeries
          { b := "a", ts := some 1,
            val := { sign := false, exponent := 1023, fraction := 0 } }] 7 = some NextResult.err
      ∧ emitted (ofList [NextResult.entry Entry.EntrySeries
          { b := "a", ts := some 1,
            val := { sign := false, exponent := 1023, fraction := 0 } }]) 0 2
        = some ["a 1.000000 1\n"] := by
  refine ⟨?_, by decide, by decide⟩
  rintro ⟨fuel, h⟩
  unfold emitted at h
  rw [runLoop_errForever] at h
  exact absurd h (by decide)

/-- C5, amended: for every loop state and every entry stream on which the parser
first reports end of input at its call `n`, the loop returns at that call and
not before, and a line-level error before it is skipped and does not end the
scan: the final carry-forward value and the records are those of the same
stream with the error items removed, so the samples before and after an error
are all written, in their order. Only end of input stops the loop. -/
theorem errors_are_skipped (p : Parser) (n : Nat) (st : LoopState)
    (hpre : ∀ i, i < n → p i ≠ none) (heof : p n = none) :
    (∀ fuel, fuel ≤ n → runLoop p fuel 0 st = none)
      ∧ (∀ fuel, n < fuel → runLoop p fuel 0 st = some (loop st (results p n)))
      ∧ (∀ fuel, n < fuel →
          runLoop p fuel 0 st = runLoop (ofList ((results p n).filter notErr)) fuel 0 st)
      ∧ (∀ fuel, n < fuel →
          emitted p st.now fuel = emitted (ofList ((results p n).filter notErr)) st.now fuel)
      ∧ loop st (results p n) = loop st ((results p n).filter notErr)
      ∧ (∀ pre post : List NextResult,
          transform st.now (pre ++ NextResult.err :: post)
            = transform st.now (pre ++ post)) := by
  have h : ∀ (st : LoopState) (r : NextResult), notErr r = false → step st r = st := by
    intro st r hr
    cases r with
    | err => rfl
    | entry et x => simp [notErr] at hr
  have hlen : (results p n).length ≤ n := by
    unfold results
    exact (List.length_filterMap_le _ _).trans (by simp)
  have hflen : ((results p n).filter notErr).length ≤ n :=
    (List.length_filter_le _ _).trans hlen
  have hrun : ∀ (st : LoopState) (fuel : Nat), n < fuel →
      runLoop p fuel 0 st = runLoop (ofList ((results p n).filter notErr)) fuel 0 st := by
    intro st fuel hf
    rw [runLoop_results p n st hpre heof fuel hf,
      runLoop_ofList _ st fuel (by omega), loop_filter notErr h]
  refine ⟨?_, ?_, hrun st, ?_, loop_filter notErr h st _, ?_⟩
  · intro fuel hf
    exact runLoop_running p fuel 0 st (fun j hj => by
      rw [Nat.zero_add]
      exact hpre j (by omega))
  · intro fuel hf
    exact runLoop_results p n st hpre heof fuel hf
  · intro fuel hf
    unfold emitted
    rw [hrun _ fuel hf]
  · intro pre post
    unfold transform
    rw [loop_append, loop_append]
    rfl

/-- C5, amended, at the stream `a 1 1`, a line-level error, `b 2 2`, end of
input: the loop returns at the fourth call with the records of `a` and `b`. -/
theorem errors_are_skipped_witness :
    (∀ i, i < 3 → ofList [NextResult.entry Entry.EntrySeries
          { b := "a", ts := some 1, val := { sign := false, exponent := 1023, fraction := 0 } },
        NextResult.err,
        NextResult.entry Entry.EntrySeries
          { b := "b", ts := some 2,
            val := { sign := false, exponent := 1024, fraction := 0 } }] i ≠ none)
      ∧ ofList [NextResult.entry Entry.EntrySeries
          { b := "a", ts := some 1, val := { sign := false, exponent := 1023, fraction := 0 } },
        NextResult.err,
        NextResult.entry Entry.EntrySeries
          { b := "b", ts := some 2,
            val := { sign := false, exponent := 1024, fraction := 0 } }] 3 = none
      ∧ runLoop (ofList [NextResult.entry Entry.EntrySeries
          { b := "a", ts := some 1, val := { sign := false, exponent := 1023, fraction := 0 } },
        NextResult.err,
        NextResult.entry Entry.EntrySeries
          { b := "b", ts := some 2,
            val := { sign := false, exponent := 1024, fraction := 0 } }]) 4 0
          { now := 0, output := [] }
        = some { now := 2, output := ["a 1.000000 1\n", "b 2.000000 2\n"] } :=
  ⟨by decide, by decide,
   ((errors_are_skipped _ 3 { now := 0, output := [] } (by decide) (by decide)).2.1 4
      (by decide)).trans (by decide)⟩

/-- C6: for every loop state and result list, an entry that is not a series
sample writes no record and leaves the carry-forward value as it is: the final
carry-forward value and the records are those of the same list with all
entries of another type removed. -/
theorem other_entries_are_ignored (st : LoopState) (rs : List NextResult) :
    loop st rs = loop st (rs.filter notOtherEntry)
      ∧ transform st.now rs = transform st.now (rs.filter notOtherEntry)
      ∧ ∀ (x : Series), step st (NextResult.entry Entry.EntryComment x) = st
          ∧ step st (NextResult.entry Entry.EntryHelp x) = st
          ∧ step st (NextResult.entry Entry.EntryType x) = st
          ∧ step st (NextResult.entry Entry.EntryInvalid x) = st := by
  have h : ∀ (st : LoopState) (r : NextResult), notOtherEntry r = false → step st r = st := by
    intro st r hr
    cases r with
    | err => simp [notOtherEntry] at hr
    | entry et x =>
      simp only [notOtherEntry, decide_eq_false_iff_not] at hr
      exact step_other st et x hr
  refine ⟨loop_filter notOtherEntry h st rs, ?_, ?_⟩
  · unfold transform
    rw [loop_filter notOtherEntry h _ rs]
  · intro x
    exact ⟨rfl, rfl, rfl, rfl⟩

/-! ## `config`: lemmas and claims -/

theorem foldl_match (l : List String) (c : inputConfig) :
    l.foldl (fun c m => { c with Match := c.Match ++ [m] }) c
      = { c with Match := c.Match ++ l } := by
  induction l generalizing c with
  | nil => simp
  | cons m l ih => simp [List.foldl_cons, ih]

theorem config_eq_foldl (stanzas : List stanza) (c : inputConfig) :
    stanzas.foldl (fun c s => s.Params.foldl configParam c) c
      = (allParams stanzas).foldl configParam c := by
  induction stanzas generalizing c with
  | nil => rfl
  | cons s rest ih =>
    simp only [List.foldl_cons, allParams, List.flatMap_cons, List.foldl_append]
    exact ih _

theorem configParam_skipVerify (c : inputConfig) (p : param) :
    (configParam c p).InsecureSkipVerify
      = if p.Name = "insecureSkipVerify" then (ParseBool p.Value).1 else c.InsecureSkipVerify := by
  unfold configParam
  simp only [foldl_match]
  split_ifs <;> rfl

theorem configParam_match (c : inputConfig) (p : param) :
    (configParam c p).Match
      = if p.Name = "match" then c.Match ++ Split p.Value ',' else c.Match := by
  unfold configParam
  simp only [foldl_match]
  split_ifs <;> rfl

theorem foldl_skipVerify (ps : List param) (c : inputConfig) :
    (ps.foldl configParam c).InsecureSkipVerify
      = match (ps.filter (fun p => p.Name = "insecureSkipVerify")).getLast? with
        | none => c.InsecureSkipVerify
        | some p => (ParseBool p.Value).1 := by
  induction ps generalizing c with
  | nil => rfl
  | cons p ps ih =>
    rw [List.foldl_cons, ih, List.filter_cons]
    by_cases hp : p.Name = "insecureSkipVerify"
    · rw [if_pos (by simpa using hp), List.getLast?_cons]
      generalize (ps.filter (fun p => p.Name = "insecureSkipVerify")).getLast? = L
      cases L with
      | none => simp [configParam_skipVerify, hp]
      | some q => simp
    · rw [if_neg (by simpa using hp)]
      generalize (ps.filter (fun p => p.Name = "insecureSkipVerify")).getLast? = L
      cases L with
      | none => simp [configParam_skipVerify, hp]
      | some q => simp

theorem foldl_config_match (ps : List param) (c : inputConfig) :
    (ps.foldl configParam c).Match
      = c.Match ++ (ps.filter (fun p => p.Name = "match")).flatMap
          (fun p => Split p.Value ',') := by
  induction ps generalizing c with
  | nil => simp
  | cons p ps ih =>
    rw [List.foldl_cons, ih, List.filter_cons, configParam_match]
    by_cases hp : p.Name = "match"
    · simp [hp]
    · simp [hp]

theorem ParseBool_true_iff (str : String) :
    (ParseBool str).1 = true ↔ str ∈ trueLiterals := by
  unfold ParseBool trueLiterals
  split_ifs with h1 h2
  · simp only [List.mem_cons, List.mem_singleton, List.not_mem_nil, or_false, true_iff]
    exact h1
  · simp only [List.mem_cons, List.mem_singleton, List.not_mem_nil, or_false]
    constructor
    · intro h; cases h
    · intro h; exact absurd h h1
  · simp only [List.mem_cons, List.mem_singleton, List.not_mem_nil, or_false]
    constructor
    · intro h; cases h
    · intro h; exact absurd h h1

theorem splitChars_ne_nil (sep : Char) (acc cs : List Char) : splitChars sep acc cs ≠ [] := by
  induction cs generalizing acc with
  | nil => simp [splitChars]
  | cons c cs ih =>
    unfold splitChars
    split_ifs
    · simp
    · exact ih _

theorem splitChars_intercalate (sep : Char) (acc cs : List Char) :
    List.intercalate [sep] (splitChars sep acc cs) = acc.reverse ++ cs := by
  induction cs generalizing acc with
  | nil => simp [splitChars, List.intercalate]
  | cons c cs ih =>
    unfold splitChars
    split_ifs with hc
    · have hne := splitChars_ne_nil sep [] cs
      have ih0 := ih []
      cases hs : splitChars sep [] cs with
      | nil => exact absurd hs hne
      | cons x xs =>
        rw [hs] at ih0
        simp only [List.intercalate, List.intersperse, List.flatten_cons, List.reverse_nil,
          List.nil_append] at ih0 ⊢
        rw [ih0, hc]
        simp
    · rw [ih]
      simp

theorem splitChars_no_sep (sep : Char) (acc cs : List Char) (hacc : sep ∉ acc) :
    ∀ piece ∈ splitChars sep acc cs, sep ∉ piece := by
  induction cs generalizing acc with
  | nil =>
    intro piece hp
    simp only [splitChars, List.mem_singleton] at hp
    rw [hp]
    simpa using hacc
  | cons c cs ih =>
    intro piece hp
    unfold splitChars at hp
    split_ifs at hp with hc
    · rcases List.mem_cons.1 hp with h | h
      · rw [h]; simpa using hacc
      · exact ih [] (by simp) piece h
    · refine ih (c :: acc) ?_ piece hp
      simp only [List.mem_cons, not_or]
      exact ⟨fun h => hc h.symm, hacc⟩

theorem intercalate_cons_eq (sep x : List Char) (xs : List (List Char)) :
    List.intercalate sep (x :: xs) = x ++ xs.flatMap (fun a => sep ++ a) := by
  induction xs generalizing x with
  | nil => simp [List.intercalate]
  | cons y ys ih =>
    have h := ih y
    simp only [List.intercalate, List.intersperse_cons₂, List.flatten_cons, List.flatMap_cons,
      List.append_assoc] at h ⊢
    rw [h]

theorem intercalate_go_data (acc s : String) (l : List String) :
    (String.intercalate.go acc s l).data = acc.data ++ l.flatMap (fun a => s.data ++ a.data) := by
  induction l generalizing acc with
  | nil => simp [String.intercalate.go]
  | cons a l ih =>
    rw [String.intercalate.go, ih]
    simp [String.data_append]

theorem string_intercalate_data (s : String) (l : List String) :
    (s.intercalate l).data = List.intercalate s.data (l.map String.data) := by
  cases l with
  | nil => rfl
  | cons a l =>
    rw [String.intercalate, intercalate_go_data, List.map_cons, intercalate_cons_eq]
    simp [List.flatMap, List.map_map, Function.comp_def]

theorem Split_join (v : String) : ",".intercalate (Split v ',') = v := by
  apply String.ext
  rw [string_intercalate_data]
  unfold Split
  rw [List.map_map]
  have h : (String.data ∘ String.mk) = id := by
    funext x; rfl
  rw [h, List.map_id]
  exact splitChars_intercalate ',' [] v.data

/-- C8: for every list of stanzas, the resolved `InsecureSkipVerify` is false
when no parameter named `insecureSkipVerify` is present, and otherwise is what
`strconv.ParseBool` makes of the value of the last such parameter in document
order: true exactly when that value is one of the literals read as true, among
them `true`, and false for `false` and for a value that is no boolean literal. -/
theorem skip_verify_resolution (stanzas : List stanza) :
    (config stanzas).InsecureSkipVerify
        = (match lastSkipVerify stanzas with
           | none => false
           | some p => (ParseBool p.Value).1)
      ∧ ((config stanzas).InsecureSkipVerify = true
          ↔ ∃ p, lastSkipVerify stanzas = some p ∧ p.Value ∈ trueLiterals)
      ∧ ParseBool "true" = (true, false) ∧ ParseBool "false" = (false, false)
      ∧ ParseBool "yes" = (false, true) ∧ ParseBool "" = (false, true) := by
  have h1 : (config stanzas).InsecureSkipVerify
      = (match lastSkipVerify stanzas with
         | none => false
         | some p => (ParseBool p.Value).1) := by
    unfold config lastSkipVerify
    rw [config_eq_foldl, foldl_skipVerify]
    rfl
  refine ⟨h1, ?_, by decide, by decide, by decide, by decide⟩
  rw [h1]
  cases lastSkipVerify stanzas with
  | none => simp
  | some p => simp [ParseBool_true_iff]

/-! ## `main`: claim -/

/-- C9: for every `os.Args`, `main` calls `run` exactly when there is no
argument after the program name; with `--scheme` as first argument it only
prints the text of `doScheme` and a newline, with `--validate-arguments` it
does nothing, and in both cases what follows the first argument plays no
part. -/
theorem main_dispatch (osArgs : List String) (prog : String) (rest : List String) :
    (main osArgs = [Effect.run] ↔ osArgs.tail = [])
      ∧ (Effect.run ∈ main osArgs ↔ osArgs.tail = [])
      ∧ main (prog :: "--scheme" :: rest) = [Effect.println (doScheme ++ "\n")]
      ∧ main (prog :: "--validate-arguments" :: rest) = [] := by
  have hne : ("--validate-arguments" : String) ≠ "--scheme" := by decide
  refine ⟨?_, ?_, ?_, ?_⟩
  · cases osArgs with
    | nil => simp [main]
    | cons a l =>
      cases l with
      | nil => simp [main]
      | cons b l =>
        simp only [main, List.length_cons, List.tail_cons]
        rw [if_pos (by omega)]
        split_ifs <;> simp [validateArguments]
  · cases osArgs with
    | nil => simp [main]
    | cons a l =>
      cases l with
      | nil => simp [main]
      | cons b l =>
        simp only [main, List.length_cons, List.tail_cons]
        rw [if_pos (by omega)]
        split_ifs <;> simp [validateArguments]
  · simp [main]
  · simp [main, hne, validateArguments]

/-! ## `config` and the query: claim -/

/-- C10: in `config`, a parameter named `match` with value `v` appends to
`Match` the pieces of `v` between commas, in order; there is at least one
piece, no piece holds a comma and the pieces joined by commas give `v` back.
`Match` is the concatenation of these pieces over the `match` parameters in
document order, so it is empty only when no stanza has a `match` parameter. A
`match` parameter with an empty value gives one empty expression, and the query
of `run` then has one `match[]` parameter with an empty value. -/
theorem match_value_split (c : inputConfig) (v : String) (stanzas : List stanza)
    (name uri : String) :
    (configParam c { Name := "match", Value := v }).Match = c.Match ++ Split v ','
      ∧ 1 ≤ (Split v ',').length
      ∧ ",".intercalate (Split v ',') = v
      ∧ (∀ piece ∈ Split v ',', ',' ∉ piece.data)
      ∧ (config stanzas).Match = (matchParamsOf stanzas).flatMap (fun p => Split p.Value ',')
      ∧ ((config stanzas).Match = [] ↔ matchParamsOf stanzas = [])
      ∧ Split "" ',' = [""]
      ∧ (config [{ Params := [{ Name := "URI", Value := uri }, { Name := "match", Value := "" }],
                   Name := name }]).Match = [""]
      ∧ (addMatches [] [""]).params = [("match[]", "")]
      ∧ RawQuery [] [""] = "match%5B%5D="
      ∧ ParseQuery (RawQuery [] [""]) = [(bytes "match[]", [])] := by
  have hne : Split v ',' ≠ [] := by
    unfold Split
    simpa using splitChars_ne_nil ',' [] v.data
  have hM : (config stanzas).Match
      = (matchParamsOf stanzas).flatMap (fun p => Split p.Value ',') := by
    unfold config matchParamsOf
    rw [config_eq_foldl, foldl_config_match]
    rfl
  have hE : (config [{ Params := [{ Name := "URI", Value := uri },
      { Name := "match", Value := "" }], Name := name }]).Match = [""] := by
    unfold config
    rw [config_eq_foldl, foldl_config_match]
    simp [allParams, inputConfig.zero]
    decide
  refine ⟨?_, ?_, Split_join v, ?_, hM, ?_, by decide, hE, by decide, by decide, by decide⟩
  · rw [configParam_match]
    simp
  · cases h : Split v ',' with
    | nil => exact absurd h hne
    | cons a l => simp
  · intro piece hp
    unfold Split at hp
    obtain ⟨cs, hcs, rfl⟩ := List.mem_map.1 hp
    exact splitChars_no_sep ',' [] v.data (by simp) cs hcs
  · rw [hM]
    constructor
    · intro h
      cases hps : matchParamsOf stanzas with
      | nil => rfl
      | cons p ps =>
        rw [hps, List.flatMap_cons] at h
        have hp : Split p.Value ',' ≠ [] := by
          unfold Split
          simpa using splitChars_ne_nil ',' [] p.Value.data
        exact absurd (List.append_eq_nil.1 h).1 hp
    · intro h
      rw [h]
      rfl

/-! ## The query of `run`: lemmas and claims -/

theorem lookup_eq_nil (v : Values) (key : String) (h : key ∉ v.map Prod.fst) :
    v.lookup key = [] := by
  induction v with
  | nil => rfl
  | cons e rest ih =>
    obtain ⟨k, vs⟩ := e
    simp only [List.map_cons, List.mem_cons, not_or] at h
    unfold Values.lookup
    rw [if_neg (fun hk => h.1 hk.symm)]
    exact ih h.2

theorem lookup_Add (v : Values) (key value k1 : String) :
    (v.Add key value).lookup k1
      = if key = k1 then v.lookup k1 ++ [value] else v.lookup k1 := by
  induction v with
  | nil =>
    by_cases h : key = k1 <;> simp [Values.Add, Values.lookup, h]
  | cons e rest ih =>
    obtain ⟨k, vs⟩ := e
    unfold Values.Add
    by_cases hk : k = key
    · rw [if_pos hk]
      subst hk
      by_cases h : k = k1 <;> simp [Values.lookup, h]
    · rw [if_neg hk]
      by_cases h : k = k1
      · have hne : ¬ key = k1 := fun hh => hk (h.trans hh.symm)
        simp [Values.lookup, h, hne]
      · simp only [Values.lookup, h, if_false]
        exact ih

theorem lookup_addMatches (q0 : Values) (ms : List String) :
    (addMatches q0 ms).lookup "match[]" = q0.lookup "match[]" ++ ms := by
  unfold addMatches
  induction ms generalizing q0 with
  | nil => simp
  | cons m ms ih =>
    rw [List.foldl_cons, ih, lookup_Add]
    simp

theorem sortedKeys_nodup (v : Values) : v.sortedKeys.Nodup := by
  unfold Values.sortedKeys
  exact (List.perm_insertionSort _ _).nodup_iff.2 (List.nodup_dedup _)

theorem mem_sortedKeys (v : Values) (key : String) :
    key ∈ v.sortedKeys ↔ key ∈ v.map Prod.fst := by
  unfold Values.sortedKeys
  rw [(List.perm_insertionSort _ _).mem_iff, List.mem_dedup]

theorem filter_key_flatMap (f : String → List String) (key : String) (l : List String)
    (hl : l.Nodup) :
    ((l.flatMap (fun k => (f k).map (fun x => (k, x)))).filter (fun kv => kv.1 = key)).map
        Prod.snd
      = if key ∈ l then f key else [] := by
  induction l with
  | nil => rfl
  | cons a l ih =>
    obtain ⟨ha, hl1⟩ := List.nodup_cons.1 hl
    rw [List.flatMap_cons, List.filter_append, List.map_append, ih hl1]
    by_cases hk : a = key
    · subst hk
      have e : ((f a).map (fun x => (a, x))).filter (fun kv => kv.1 = a)
          = (f a).map (fun x => (a, x)) := by
        apply List.filter_eq_self.2
        intro kv hkv
        obtain ⟨x, _, rfl⟩ := List.mem_map.1 hkv
        simp
      rw [e, if_neg ha]
      simp [List.map_map, Function.comp_def]
    · have e : ((f a).map (fun x => (a, x))).filter (fun kv => kv.1 = key) = [] := by
        apply List.filter_eq_nil_iff.2
        intro kv hkv
        obtain ⟨x, _, rfl⟩ := List.mem_map.1 hkv
        simpa using hk
      rw [e]
      have hiff : (key ∈ a :: l) ↔ key ∈ l := by
        simp only [List.mem_cons]
        constructor
        · rintro (h | h)
          · exact absurd h.symm hk
          · exact h
        · exact Or.inr
      by_cases hm : key ∈ l
      · simp [hm]
      · rw [if_neg hm, if_neg (fun h => hm (hiff.1 h))]
        rfl

theorem matchParams_params (v : Values) : matchParams v.params = v.lookup "match[]" := by
  unfold matchParams Values.params
  rw [filter_key_flatMap v.lookup "match[]" v.sortedKeys (sortedKeys_nodup v)]
  split_ifs with h
  · rfl
  · exact (lookup_eq_nil v "match[]" (fun hm => h ((mem_sortedKeys v _).2 hm))).symm

theorem unhex_upperhex : ∀ n, n < 16 → unhex (upperhex n) = some n := by
  decide

theorem upperhex_safe :
    ∀ n, n < 16 → upperhex n ≠ '&' ∧ upperhex n ≠ '=' ∧ upperhex n ≠ ';' := by
  decide

theorem plain_byte : ∀ b, b < 128 → shouldEscape b = false →
    Char.ofNat b ≠ '%' ∧ Char.ofNat b ≠ '+' ∧ Char.ofNat b ≠ '&' ∧ Char.ofNat b ≠ '='
      ∧ Char.ofNat b ≠ ';' ∧ utf8Bytes (Char.ofNat b) = [b] := by
  decide

theorem shouldEscape_false_lt (b : Nat) (h : shouldEscape b = false) : b < 128 := by
  simp [shouldEscape] at h
  omega

theorem unescape_escapeByte (b : Nat) (hb : b < 256) (cs : List Char) :
    unescapeChars (escapeByte b ++ cs) = (unescapeChars cs).map (fun bs => b :: bs) := by
  unfold escapeByte
  cases he : shouldEscape b with
  | true =>
    simp only [if_true]
    by_cases h32 : b = 32
    · subst h32
      rw [if_pos rfl, List.singleton_append, unescapeChars.eq_def]
      simp
    · have h1 := unhex_upperhex (b / 16) (by omega)
      have h2 := unhex_upperhex (b % 16) (by omega)
      have e : 16 * (b / 16) + b % 16 = b := by omega
      simp [h32, unescapeChars, h1, h2, e]
  | false =>
    obtain ⟨p1, p2, _, _, _, p5⟩ := plain_byte b (shouldEscape_false_lt b he) he
    rw [if_neg (by simp), List.singleton_append, unescapeChars.eq_def]
    simp [p1, p2, p5]

theorem escapeByte_safe (b : Nat) (hb : b < 256) :
    ∀ c ∈ escapeByte b, c ≠ '&' ∧ c ≠ '=' ∧ c ≠ ';' := by
  intro c hc
  unfold escapeByte at hc
  cases he : shouldEscape b with
  | true =>
    rw [he] at hc
    simp only [if_true] at hc
    by_cases h32 : b = 32
    · rw [if_pos h32] at hc
      rw [List.mem_singleton.1 hc]
      decide
    · rw [if_neg h32] at hc
      simp only [List.mem_cons, List.mem_singleton, List.not_mem_nil, or_false] at hc
      rcases hc with h | h | h
      · rw [h]; decide
      · rw [h]; exact upperhex_safe (b / 16) (by omega)
      · rw [h]; exact upperhex_safe (b % 16) (by omega)
  | false =>
    rw [he] at hc
    obtain ⟨_, _, p3, p4, p5, _⟩ := plain_byte b (shouldEscape_false_lt b he) he
    rw [if_neg (by simp), List.mem_singleton] at hc
    rw [hc]
    exact ⟨p3, p4, p5⟩

theorem utf8Bytes_lt (c : Char) : ∀ b ∈ utf8Bytes c, b < 256 := by
  have hv : c.toNat < 1114112 := by
    have h := c.valid
    simp only [Char.toNat, UInt32.isValidChar, Nat.isValidChar] at h ⊢
    rcases h with h | h
    · exact Nat.lt_trans h (by decide)
    · exact h.2
  intro b hb
  unfold utf8Bytes at hb
  simp only at hb
  split_ifs at hb <;>
    simp only [List.mem_cons, List.mem_singleton, List.not_mem_nil, or_false] at hb <;>
    omega

theorem bytes_lt (s : String) : ∀ b ∈ bytes s, b < 256 := by
  intro b hb
  unfold bytes at hb
  obtain ⟨c, _, hc⟩ := List.mem_flatMap.1 hb
  exact utf8Bytes_lt c b hc

theorem unescape_escape (bs : List Nat) (hbs : ∀ b ∈ bs, b < 256) (cs : List Char) :
    unescapeChars (bs.flatMap escapeByte ++ cs) = (unescapeChars cs).map (fun t => bs ++ t) := by
  induction bs with
  | nil => simp
  | cons b bs ih =>
    rw [List.flatMap_cons, List.append_assoc,
      unescape_escapeByte b (hbs b (List.mem_cons_self b bs)),
      ih (fun x hx => hbs x (List.mem_cons_of_mem b hx))]
    cases unescapeChars cs <;> simp

theorem unescape_QueryEscape (s : String) :
    unescapeChars (QueryEscape s).data = some (bytes s) := by
  have h := unescape_escape (bytes s) (bytes_lt s) []
  simp only [List.append_nil] at h
  unfold QueryEscape
  rw [h]
  simp [unescapeChars]

theorem QueryEscape_safe (s : String) :
    ∀ c ∈ (QueryEscape s).data, c ≠ '&' ∧ c ≠ '=' ∧ c ≠ ';' := by
  intro c hc
  unfold QueryEscape at hc
  obtain ⟨b, hb, hcb⟩ := List.mem_flatMap.1 hc
  exact escapeByte_safe b (bytes_lt s b hb) c hcb

theorem splitChars_piece (sep : Char) (acc p tail : List Char) (h : sep ∉ p) :
    splitChars sep acc p = [acc.reverse ++ p]
      ∧ splitChars sep acc (p ++ sep :: tail) = (acc.reverse ++ p) :: splitChars sep [] tail := by
  induction p generalizing acc with
  | nil => simp [splitChars]
  | cons c p ih =>
    simp only [List.mem_cons, not_or] at h
    have hc : ¬ c = sep := fun e => h.1 e.symm
    obtain ⟨h1, h2⟩ := ih (c :: acc) h.2
    constructor
    · rw [splitChars, if_neg hc, h1]
      simp
    · rw [List.cons_append, splitChars, if_neg hc, h2]
      simp

theorem splitChars_pieces (sep : Char) (x : List Char) (xs : List (List Char))
    (h : ∀ p ∈ x :: xs, sep ∉ p) :
    splitChars sep [] (x ++ xs.flatMap (fun a => [sep] ++ a)) = x :: xs := by
  induction xs generalizing x with
  | nil =>
    simpa using (splitChars_piece sep [] x [] (h x (List.mem_cons_self x []))).1
  | cons y ys ih =>
    rw [List.flatMap_cons, List.singleton_append, List.cons_append,
      (splitChars_piece sep [] x _ (h x (List.mem_cons_self x _))).2]
    rw [ih y (fun p hp => h p (List.mem_cons_of_mem x hp))]
    simp

theorem cut_append (sep : Char) (a b : List Char) (h : sep ∉ a) :
    cut sep (a ++ sep :: b) = (a, b) := by
  induction a with
  | nil => simp [cut]
  | cons c a ih =>
    simp only [List.mem_cons, not_or] at h
    have hc : ¬ c = sep := fun e => h.1 e.symm
    rw [List.cons_append, cut, if_neg hc, ih h.2]

theorem piece_data (kv : String × String) :
    (QueryEscape kv.1 ++ "=" ++ QueryEscape kv.2).data
      = (QueryEscape kv.1).data ++ '=' :: (QueryEscape kv.2).data := by
  simp [String.data_append]

theorem parsePair_piece (kv : String × String) :
    parsePair (QueryEscape kv.1 ++ "=" ++ QueryEscape kv.2).data
      = some (bytes kv.1, bytes kv.2) := by
  rw [piece_data]
  have hk := QueryEscape_safe kv.1
  have hv := QueryEscape_safe kv.2
  have hsemi : ';' ∉ (QueryEscape kv.1).data ++ '=' :: (QueryEscape kv.2).data := by
    intro hm
    rcases List.mem_append.1 hm with h | h
    · exact (hk _ h).2.2 rfl
    · rcases List.mem_cons.1 h with h | h
      · exact absurd h (by decide)
      · exact (hv _ h).2.2 rfl
  have heq : '=' ∉ (QueryEscape kv.1).data := fun h => (hk _ h).2.1 rfl
  unfold parsePair
  rw [if_neg hsemi, if_neg (by simp), cut_append '=' _ _ heq, unescape_QueryEscape,
    unescape_QueryEscape]

theorem ParseQuery_Encode (v : Values) :
    ParseQuery v.Encode = v.params.map (fun kv => (bytes kv.1, bytes kv.2)) := by
  unfold ParseQuery Values.Encode
  rw [string_intercalate_data, List.map_map]
  cases v.params with
  | nil => simp [List.intercalate, splitChars, parsePair]
  | cons kv rest =>
    rw [List.map_cons, intercalate_cons_eq]
    have hsafe : ∀ p ∈ (String.data ∘ fun kv : String × String =>
        QueryEscape kv.1 ++ "=" ++ QueryEscape kv.2) kv
          :: List.map (String.data ∘ fun kv : String × String =>
            QueryEscape kv.1 ++ "=" ++ QueryEscape kv.2) rest, '&' ∉ p := by
      intro p hp
      have hp1 : p ∈ List.map (String.data ∘ fun kv : String × String =>
          QueryEscape kv.1 ++ "=" ++ QueryEscape kv.2) (kv :: rest) := by
        simpa using hp
      obtain ⟨e, _, rfl⟩ := List.mem_map.1 hp1
      simp only [Function.comp_apply, piece_data]
      intro hm
      rcases List.mem_append.1 hm with h | h
      · exact (QueryEscape_safe e.1 _ h).1 rfl
      · rcases List.mem_cons.1 h with h | h
        · exact absurd h (by decide)
        · exact (QueryEscape_safe e.2 _ h).1 rfl
    have hsplit := splitChars_pieces '&' _ _ hsafe
    simp only [String.data, List.singleton_append] at hsplit ⊢
    rw [hsplit, ← List.map_cons, List.filterMap_map]
    rw [← List.filterMap_eq_map]
    congr 1
    funext e
    simp only [Function.comp_apply]
    exact parsePair_piece e

/-- C7, as stated, fails: with the URI `http://localhost:9090/federate?match[]=up`,
whose query `req.URL.Query()` reads as one value `up` of `match[]`, and an empty
list of match expressions, the query string is `match%5B%5D=up`, which has one
parameter named `match[]` and not none. -/
theorem match_parameters_refuted :
    matchParams (addMatches [("match[]", ["up"])] []).params = ["up"]
      ∧ RawQuery [("match[]", ["up"])] [] = "match%5B%5D=up"
      ∧ ParseQuery "match%5B%5D=up" = [(bytes "match[]", bytes "up")]
      ∧ (["up"] : List String) ≠ [] := by
  decide

/-- C7, amended: for every list of match expressions m1..mn and every set of
query values `q0` that the configured URI brings along, the parameters named
`match[]` that `Encode` writes are those of `q0`, in their order, followed by
m1..mn in list order, and the query string reads back, parameter by parameter,
as what `Encode` wrote. For the list `{job="a"}`, `{job="b"}` and a URI without
a query this gives two `match[]` parameters, `{job="a"}` first, and none for
the empty list. -/
theorem match_parameters_appended (q0 : Values) (ms : List String) :
    matchParams (addMatches q0 ms).params = q0.lookup "match[]" ++ ms
      ∧ ParseQuery (RawQuery q0 ms)
          = (addMatches q0 ms).params.map (fun kv => (bytes kv.1, bytes kv.2))
      ∧ matchParams (addMatches [] ms).params = ms
      ∧ RawQuery [] ["\x7bjob=\"a\"\x7d", "\x7bjob=\"b\"\x7d"]
          = "match%5B%5D=%7Bjob%3D%22a%22%7D&match%5B%5D=%7Bjob%3D%22b%22%7D"
      ∧ (addMatches [] ["\x7bjob=\"a\"\x7d", "\x7bjob=\"b\"\x7d"]).params
          = [("match[]", "\x7bjob=\"a\"\x7d"), ("match[]", "\x7bjob=\"b\"\x7d")]
      ∧ RawQuery [] [] = "" := by
  refine ⟨?_, ParseQuery_Encode _, ?_, by decide, by decide, by decide⟩
  · rw [matchParams_params, lookup_addMatches]
  · rw [matchParams_params, lookup_addMatches]
    rfl

end Prometheus
